import Mathlib

/-!
# Verification of the mp3extractor batch-conversion services

Shallow embedding of the parts of `tonykipkemboi/mp3extractor` that the
specification talks about:

* `backend/services/conversion_service.py` — the async batch conversion job
  (`convert_job` / `convert_single_file` / `file_progress_cb` / `cancel_job`),
  modelled as a labelled transition system over an explicit job state;
* `mp3extractor/parallel.py` — `ParallelProcessor` sequential and parallel
  batch processing, worker-count selection;
* `backend/services/progress_service.py` — the SSE subscriber registry.

Machine integers are modelled as `ℕ`/`ℤ`; Python float fractions are modelled
as `ℚ` (the code only forms `current/total` and compares against the literals
`0.05` and `0.99`).
-/

namespace Mp3Extractor

/-! ## Progress throttling

`conversion_service.py`, `file_progress_cb` (lines 90-119).  The callback
keeps one mutable cell `last_progress = [0.0]` per file; on each sample
`(current_ms, total_ms)` it emits a database update and an SSE broadcast
exactly when `total_ms > 0` and the new fraction either advanced by at least
`0.05` over the stored value or is at least `0.99`; on emission the stored
value is overwritten with the new fraction.
-/

/-- One call of `file_progress_cb`.  `last` is the value of
`last_progress[0]` before the call; the result is `(emitted, new last)`. -/
def fileProgressCb (last : ℚ) (currentMs totalMs : ℕ) : Bool × ℚ :=
  if 0 < totalMs then
    if (currentMs : ℚ) / (totalMs : ℚ) - last ≥ 5 / 100 ∨
        (currentMs : ℚ) / (totalMs : ℚ) ≥ 99 / 100 then
      (true, (currentMs : ℚ) / (totalMs : ℚ))
    else
      (false, last)
  else
    (false, last)

/-- The list of fractions emitted by `file_progress_cb` over a sequence of
samples, starting from stored value `last` (`0` at item start). -/
def runFileProgress : List (ℕ × ℕ) → ℚ → List ℚ
  | [], _ => []
  | s :: rest, last =>
      let r := fileProgressCb last s.1 s.2
      if r.1 then r.2 :: runFileProgress rest r.2 else runFileProgress rest r.2

/-! ## ParallelProcessor (`mp3extractor/parallel.py`)

Each task's conversion outcome is a parameter of the model:
`_worker_process_file` catches every exception and always returns a
`ConversionResult`, so a sequential task outcome is just the `success` flag.
In parallel mode the collection loop can additionally hit
`multiprocessing.TimeoutError` or another exception while collecting, so a
parallel task outcome has four cases.
-/

/-- Worker-count selection, `ParallelProcessor.__init__` lines 141-146.
`none` models Python `workers=None`. -/
def resolveWorkers (workers : Option ℤ) (cpuCount : ℕ) : ℕ :=
  match workers with
  | none => max 1 (cpuCount - 1)
  | some w => if w ≤ 0 then max 1 (cpuCount - 1) else min w.toNat cpuCount

/-- `get_optimal_worker_count`, lines 350-364. -/
def getOptimalWorkerCount (cpuCount : ℕ) : ℕ := max 1 (cpuCount - 1)

/-- `_process_sequential` result list (lines 223-248): each task is processed
in order and its result appended; on a failed result with `fail_fast` the
loop breaks (after appending the failing result). -/
def seqResults (failFast : Bool) : List Bool → List Bool
  | [] => []
  | r :: rest =>
      if r = false ∧ failFast then [r] else r :: seqResults failFast rest

/-- `_process_sequential` return value `(results, success_count,
failure_count)`; `success_count` counts successful results and
`failure_count = total - success_count` (line 256). -/
def processSequential (failFast : Bool) (outcomes : List Bool) :
    List Bool × ℕ × ℕ :=
  (seqResults failFast outcomes,
   (seqResults failFast outcomes).count true,
   outcomes.length - (seqResults failFast outcomes).count true)

/-- Outcome of collecting one parallel task: the worker's result (`ok` /
`fail`), a collection timeout, or another collection error. -/
inductive TaskOutcome where
  | ok
  | fail
  | timeout
  | collectErr
deriving DecidableEq

/-- The `success` flag of the result appended for one collected outcome
(timeouts and collection errors append a synthetic failed result). -/
def collectedFlag : TaskOutcome → Bool
  | .ok => true
  | _ => false

/-- `_process_parallel` collection loop (lines 306-341): results are
collected in submission order; only a worker-reported failure triggers the
fail-fast `pool.terminate()` and break — timeouts and collection errors
append a failed result and continue. -/
def parResults (failFast : Bool) : List TaskOutcome → List Bool
  | [] => []
  | o :: rest =>
      if o = TaskOutcome.fail ∧ failFast then [false]
      else collectedFlag o :: parResults failFast rest

/-- `_process_parallel` return value (lines 343-347):
`failure_count = len(results) - success_count`. -/
def processParallel (failFast : Bool) (outcomes : List TaskOutcome) :
    List Bool × ℕ × ℕ :=
  (parResults failFast outcomes,
   (parResults failFast outcomes).count true,
   (parResults failFast outcomes).length - (parResults failFast outcomes).count true)

/-! ## ProgressService (`backend/services/progress_service.py`)

The registry `self.connections : Dict[str, Set[asyncio.Queue]]` is modelled
as a total function from job ids to finite sets of queue identities, with a
Python dict key being present exactly when its set is nonempty (the code
maintains this: `add_connection` always inserts an element, and
`remove_connection` deletes a key as soon as its set becomes empty).
`queue.put` on an unbounded `asyncio.Queue` does not raise, so the
dead-queue sweep in `broadcast` never fires and `broadcast` leaves the
registry unchanged.
-/

structure ProgressServiceState where
  connections : String → Finset ℕ

/-- `add_connection` (lines 21-25). -/
def addConnection (st : ProgressServiceState) (jobId : String) (q : ℕ) :
    ProgressServiceState :=
  ⟨fun j => if j = jobId then insert q (st.connections jobId) else st.connections j⟩

/-- `remove_connection` (lines 27-32): `discard` the queue; a key whose set
became empty is deleted, which in this model is the identity. -/
def removeConnection (st : ProgressServiceState) (jobId : String) (q : ℕ) :
    ProgressServiceState :=
  ⟨fun j => if j = jobId then (st.connections jobId).erase q else st.connections j⟩

/-- The SSE wire message built by `broadcast` (line 47); `data` stands for
the JSON-serialised payload. -/
def sseMessage (event data : String) : String :=
  "event: " ++ event ++ "\ndata: " ++ data ++ "\n\n"

/-- `broadcast` (lines 34-59): no subscribers means an early return;
otherwise the message is delivered to every subscribed queue and the
registry is unchanged. -/
def broadcast (st : ProgressServiceState) (jobId : String) (event data : String) :
    ProgressServiceState × List (ℕ × String) :=
  if st.connections jobId = ∅ then (st, [])
  else (st, ((st.connections jobId).sort (· ≤ ·)).map fun q => (q, sseMessage event data))

/-! ## ConversionService.convert_job (`backend/services/conversion_service.py`)

`convert_job` (lines 31-257) runs one coroutine `convert_single_file` per
file under `asyncio.Semaphore(max_concurrent_files)`; the event loop
interleaves the coroutines at their await points.  The model is a labelled
transition system with one label per observable step of one coroutine, plus
`cancel` (an external `cancel_job` call, lines 259-276) and `finalize` (the
post-`asyncio.gather` status update, lines 226-244).  The outcome of
`extract_audio` for each file (success, or one of the caught conversion
errors) is a parameter. -/

/-- Status of one file's coroutine/database row.  `holding` is the point
between acquiring the semaphore and the cancellation check; `skipped` is a
coroutine that returned `"cancelled"` without touching its file. -/
inductive FileStatus where
  | queued
  | holding
  | processing
  | completed
  | failed
  | skipped
deriving DecidableEq

/-- Job database status values reachable during `convert_job`. -/
inductive JobStatus where
  | processing
  | completed
  | failed
  | cancelled
deriving DecidableEq

/-- Static data of one run: the `extract_audio` outcome per file
(`true` = success) and the semaphore size (`max_concurrent_files`, 3 in the
code). -/
structure JobConfig where
  outcomes : List Bool
  limit : ℕ

/-- `total_files = len(files)` (line 62). -/
def JobConfig.total (cfg : JobConfig) : ℕ := cfg.outcomes.length

/-- Mutable state of one `convert_job` run: per-file statuses, free
semaphore slots, the `results` counters, the last `overall_progress` written
by `update_job_progress`, the job status row, the `active_jobs[job_id]`
flag, and whether the post-gather status update has run. -/
structure JobState where
  files : List FileStatus
  sem : ℕ
  completedCnt : ℕ
  failedCnt : ℕ
  overall : ℚ
  status : JobStatus
  active : Bool
  finalized : Bool
deriving DecidableEq

/-- State at line 68: job status set to `processing`, all counters zero,
no coroutine started. -/
def initState (cfg : JobConfig) : JobState :=
  { files := List.replicate cfg.total .queued
    sem := cfg.limit
    completedCnt := 0
    failedCnt := 0
    overall := 0
    status := .processing
    active := true
    finalized := false }

/-- One scheduler step: a coroutine acquires the semaphore (line 75), passes
or fails the cancellation check (lines 77-87), finishes its conversion with
its outcome and releases the semaphore (lines 89-221); or `cancel_job` runs;
or the post-gather finalization runs. -/
inductive JobLabel where
  | acquire (i : ℕ)
  | beginFile (i : ℕ)
  | skipFile (i : ℕ)
  | finish (i : ℕ)
  | cancel
  | finalize

/-- A coroutine that has resolved: its file completed or failed, or the
coroutine returned `"cancelled"`.  `asyncio.gather` returns when every
coroutine has resolved. -/
def isResolved : FileStatus → Bool
  | .completed => true
  | .failed => true
  | .skipped => true
  | _ => false

/-- Guarded small-step semantics of `convert_job`; `none` means the label is
not enabled in the given state. -/
def step (cfg : JobConfig) (l : JobLabel) (s : JobState) : Option JobState :=
  match l with
  | .acquire i =>
      -- `async with semaphore:` — needs a free slot and an unstarted file
      if s.files[i]? = some FileStatus.queued ∧ 0 < s.sem then
        some { s with files := s.files.set i .holding, sem := s.sem - 1 }
      else none
  | .beginFile i =>
      -- cancellation check passes; file row set to "processing" (lines 84-87)
      if s.files[i]? = some FileStatus.holding ∧ s.active = true then
        some { s with files := s.files.set i .processing }
      else none
  | .skipFile i =>
      -- `if not self.active_jobs.get(job_id): return "cancelled"` (lines 77-78);
      -- the coroutine resolves without touching its file and frees its slot
      if s.files[i]? = some FileStatus.holding ∧ s.active = false then
        some { s with files := s.files.set i .skipped, sem := s.sem + 1 }
      else none
  | .finish i =>
      -- conversion resolves with the file's outcome; file row, counters and
      -- overall progress updated under results_lock (lines 144-221), then
      -- the semaphore is released
      match cfg.outcomes[i]? with
      | some ok =>
          if s.files[i]? = some FileStatus.processing then
            some { s with
              files := s.files.set i (if ok then .completed else .failed)
              completedCnt := if ok then s.completedCnt + 1 else s.completedCnt
              failedCnt := if ok then s.failedCnt else s.failedCnt + 1
              overall :=
                (((if ok then s.completedCnt + 1 else s.completedCnt)
                  + (if ok then s.failedCnt else s.failedCnt + 1) : ℕ) : ℚ)
                  / (cfg.total : ℚ)
              sem := s.sem + 1 }
          else none
      | none => none
  | .cancel =>
      -- `cancel_job`: only while the job is registered in active_jobs and
      -- still marked active (lines 270-276)
      if s.active = true ∧ s.finalized = false then
        some { s with active := false, status := .cancelled }
      else none
  | .finalize =>
      -- after `asyncio.gather` every coroutine has resolved; the job status
      -- is overwritten from the counters alone (lines 230-236)
      if s.files.all isResolved ∧ s.finalized = false then
        some { s with
          status := if s.failedCnt = cfg.total then .failed else .completed
          finalized := true }
      else none

/-- Run a schedule of labels from a state; `none` if any label is not
enabled. -/
def run (cfg : JobConfig) : List JobLabel → JobState → Option JobState
  | [], s => some s
  | l :: ls, s =>
      match step cfg l s with
      | some s' => run cfg ls s'
      | none => none

/-- All states visited while running a schedule (including the start state;
stops at a disabled label). -/
def traceStates (cfg : JobConfig) : List JobLabel → JobState → List JobState
  | [], s => [s]
  | l :: ls, s =>
      s :: (match step cfg l s with
            | some s' => traceStates cfg ls s'
            | none => [])

/-! ### Run invariant -/

def isCompleted : FileStatus → Bool
  | .completed => true
  | _ => false

def isFailed : FileStatus → Bool
  | .failed => true
  | _ => false

def isSkipped : FileStatus → Bool
  | .skipped => true
  | _ => false

/-- A coroutine between its semaphore acquire and release. -/
def holdsSlot : FileStatus → Bool
  | .holding => true
  | .processing => true
  | _ => false

def isProcessing : FileStatus → Bool
  | .processing => true
  | _ => false

/-- A coroutine that has not resolved yet. -/
def unresolved : FileStatus → Bool
  | .queued => true
  | .holding => true
  | .processing => true
  | _ => false

/-- Invariant of every reachable state of a `convert_job` run. -/
structure Inv (cfg : JobConfig) (s : JobState) : Prop where
  lenEq : s.files.length = cfg.total
  compEq : s.completedCnt = s.files.countP isCompleted
  failEq : s.failedCnt = s.files.countP isFailed
  progEq : s.overall = ((s.completedCnt + s.failedCnt : ℕ) : ℚ) / (cfg.total : ℚ)
  slotsEq : s.sem + s.files.countP holdsSlot = cfg.limit
  noSkip : s.active = true → s.files.countP isSkipped = 0
  termFinal : (s.status = JobStatus.completed ∨ s.status = JobStatus.failed) →
    s.finalized = true
  finalResolved : s.finalized = true → s.files.countP unresolved = 0
  finalStatus : s.finalized = true →
    s.status = if s.failedCnt = cfg.total then JobStatus.failed else JobStatus.completed

/-! ### Concrete schedules -/

/-- Scenario D configuration: three files whose conversions would all
succeed, with the code's `max_concurrent_files = 3`. -/
def cfgD : JobConfig := ⟨[true, true, true], 3⟩

/-- Scenario D schedule: file 1 completes, `cancel_job` arrives, files 2-3
hit the cancellation check and are skipped, then the post-gather update
runs. -/
def schedD : List JobLabel :=
  [.acquire 0, .beginFile 0, .finish 0, .cancel,
   .acquire 1, .skipFile 1, .acquire 2, .skipFile 2, .finalize]

/-- A batch of two files where the second conversion fails. -/
def cfgB : JobConfig := ⟨[true, false], 3⟩

/-- Both files of `cfgB` run to completion, then the run finalizes. -/
def schedB : List JobLabel :=
  [.acquire 0, .beginFile 0, .finish 0,
   .acquire 1, .beginFile 1, .finish 1, .finalize]

/-- A single successful file with `max_concurrent_files = 3`. -/
def cfgW : JobConfig := ⟨[true], 3⟩

/-- The single file of `cfgW` runs to completion, then the run finalizes. -/
def schedW : List JobLabel := [.acquire 0, .beginFile 0, .finish 0, .finalize]

/-! ## Lemmas and theorems -/

lemma fileProgressCb_emit_val {last : ℚ} {c t : ℕ}
    (h : (fileProgressCb last c t).1 = true) :
    (fileProgressCb last c t).2 = (c : ℚ) / (t : ℚ) := by
  unfold fileProgressCb at *
  split_ifs at h ⊢ with h1 h2 <;> simp_all

/-- Every emitted fraction is one of the sample fractions, in order. -/
lemma runFileProgress_sublist (samples : List (ℕ × ℕ)) (last : ℚ) :
    (runFileProgress samples last).Sublist
      (samples.map fun s => (s.1 : ℚ) / (s.2 : ℚ)) := by
  induction samples generalizing last with
  | nil => simp [runFileProgress]
  | cons s rest ih =>
      simp only [runFileProgress, List.map_cons]
      by_cases h : (fileProgressCb last s.1 s.2).1 = true
      · rw [if_pos h, fileProgressCb_emit_val h]
        exact (ih _).cons₂ _
      · rw [if_neg h]
        exact (ih _).cons _

/-- A sample whose fraction is at least `0.99` always causes an emission of a
fraction that is at least `0.99` (the second disjunct of the guard does not
depend on the stored value). -/
lemma runFileProgress_mem_high (samples : List (ℕ × ℕ)) (last : ℚ)
    {c t : ℕ} (hmem : (c, t) ∈ samples) (ht : 0 < t)
    (hp : (99 : ℚ) / 100 ≤ (c : ℚ) / (t : ℚ)) :
    ∃ q ∈ runFileProgress samples last, (99 : ℚ) / 100 ≤ q := by
  induction samples generalizing last with
  | nil => cases hmem
  | cons s rest ih =>
      rcases List.mem_cons.mp hmem with heq | htail
      · subst heq
        have hemit : (fileProgressCb last c t).1 = true := by
          unfold fileProgressCb
          rw [if_pos ht, if_pos (Or.inr hp)]
        refine ⟨(fileProgressCb last c t).2, ?_, ?_⟩
        · simp only [runFileProgress, if_pos hemit]
          exact List.mem_cons_self _ _
        · rw [fileProgressCb_emit_val hemit]; exact hp
      · obtain ⟨q, hq, hq99⟩ := ih (fileProgressCb last s.1 s.2).2 htail
        refine ⟨q, ?_, hq99⟩
        simp only [runFileProgress]
        by_cases h : (fileProgressCb last s.1 s.2).1 = true
        · rw [if_pos h]; exact List.mem_cons_of_mem _ hq
        · rw [if_neg h]; exact hq

/-- In a `≤`-pairwise list every member is bounded by the last element. -/
lemma pairwise_le_getLast? (l : List ℚ) (h : l.Pairwise (· ≤ ·))
    {a : ℚ} (ha : a ∈ l) {x : ℚ} (hx : l.getLast? = some x) : a ≤ x := by
  induction l with
  | nil => cases ha
  | cons b tl ih =>
      cases tl with
      | nil =>
          simp only [List.mem_singleton] at ha
          simp only [List.getLast?_singleton, Option.some.injEq] at hx
          simp [ha, hx]
      | cons c tl' =>
          rw [List.getLast?_cons_cons] at hx
          have hx_mem : x ∈ c :: tl' := by
            have hne : (c :: tl') ≠ [] := List.cons_ne_nil _ _
            rw [List.getLast?_eq_getLast _ hne, Option.some.injEq] at hx
            rw [← hx]
            exact List.getLast_mem hne
          rcases List.mem_cons.mp ha with heq | htail
          · subst heq
            exact (List.pairwise_cons.mp h).1 x hx_mem
          · exact ih (List.pairwise_cons.mp h).2 htail hx

/-- C5: for every progress sample `(current, total)` of an item, the
aggregator emits an update if and only if `total > 0` and either the fraction
`current/total` advanced by at least five percentage points over the last
emitted fraction (which starts at `0` when the item starts) or the fraction is
at least `0.99`; on emission the emitted value is the fraction itself, and a
sample with `total = 0` emits nothing and leaves the stored state unchanged
(no division is performed). -/
theorem fileProgressCb_emit_iff (last : ℚ) (c t : ℕ) :
    ((fileProgressCb last c t).1 = true ↔
      0 < t ∧ ((c : ℚ) / (t : ℚ) - last ≥ 5 / 100 ∨
               (c : ℚ) / (t : ℚ) ≥ 99 / 100))
  ∧ ((fileProgressCb last c t).1 = true →
      (fileProgressCb last c t).2 = (c : ℚ) / (t : ℚ))
  ∧ fileProgressCb last c 0 = (false, last) := by
  refine ⟨?_, fun h => fileProgressCb_emit_val h, ?_⟩
  · unfold fileProgressCb
    split_ifs with h1 h2 <;> simp_all
  · unfold fileProgressCb
    simp

/-- Witness for C5 at concrete inputs: the sample `(1, 2)` with stored value
`0` emits the fraction `1/2`, and a sample with `total = 0` is a no-op. -/
theorem fileProgressCb_emit_iff_witness :
    (fileProgressCb 0 1 2).2 = (1 : ℚ) / 2 ∧ fileProgressCb 0 7 0 = (false, 0) := by
  refine ⟨(fileProgressCb_emit_iff 0 1 2).2.1 ?_, (fileProgressCb_emit_iff 0 7 0).2.2⟩
  exact (fileProgressCb_emit_iff 0 1 2).1.mpr ⟨by norm_num, Or.inl (by norm_num)⟩

/-- C6 counterexample to the claim as stated: a single sample `(98, 100)` is a
non-decreasing sequence of samples bounded by the total, yet the last (and
only) emitted fraction is `98/100 < 0.99`.  The code only guarantees a final
emission `≥ 0.99` when some sample itself reaches a fraction `≥ 0.99`. -/
theorem runFileProgress_last_below_099 :
    List.Pairwise (· ≤ ·) [98] ∧ (∀ x ∈ [98], x ≤ 100) ∧ 0 < 100
  ∧ (runFileProgress ([98].map fun c => (c, 100)) 0).getLast? =
      some ((98 : ℚ) / 100)
  ∧ ¬ (99 : ℚ) / 100 ≤ (98 : ℚ) / 100 := by
  refine ⟨by simp, by simp, by norm_num, ?_, by norm_num⟩
  have h1 : (0 : ℚ) < 100 := by norm_num
  unfold runFileProgress fileProgressCb
  norm_num [runFileProgress]

/-- C6 (amended): for an item whose encoder reports non-decreasing samples
with a fixed positive total, the emitted fractions form a non-decreasing
sequence; and provided some sample has fraction at least `0.99` (in
particular a final sample with `current = total`), the last emitted fraction
is at least `0.99`. -/
theorem runFileProgress_monotone_and_high (currents : List ℕ) (t : ℕ)
    (ht : 0 < t) (hmono : currents.Pairwise (· ≤ ·))
    (hbound : ∀ c ∈ currents, c ≤ t) :
    (runFileProgress (currents.map fun c => (c, t)) 0).Pairwise (· ≤ ·)
  ∧ ((∃ c ∈ currents, (99 : ℚ) / 100 ≤ (c : ℚ) / (t : ℚ)) →
      ∃ q, (runFileProgress (currents.map fun c => (c, t)) 0).getLast? = some q
        ∧ (99 : ℚ) / 100 ≤ q) := by
  have ht' : (0 : ℚ) < (t : ℚ) := by exact_mod_cast ht
  have hfrac : ((currents.map fun c => (c, t)).map
      fun s => (s.1 : ℚ) / (s.2 : ℚ)).Pairwise (· ≤ ·) := by
    rw [List.map_map]
    refine hmono.map _ ?_
    intro a b hab
    simp only [Function.comp]
    exact (div_le_div_right ht').mpr (by exact_mod_cast hab)
  have hsorted : (runFileProgress (currents.map fun c => (c, t)) 0).Pairwise (· ≤ ·) :=
    List.Pairwise.sublist (runFileProgress_sublist _ 0) hfrac
  refine ⟨hsorted, ?_⟩
  rintro ⟨c, hc, hp⟩
  obtain ⟨q, hq, h99⟩ :=
    runFileProgress_mem_high (currents.map fun c => (c, t)) 0
      (List.mem_map_of_mem _ hc) ht hp
  have hne : runFileProgress (currents.map fun c => (c, t)) 0 ≠ [] :=
    List.ne_nil_of_mem hq
  refine ⟨_, List.getLast?_eq_getLast _ hne, ?_⟩
  exact le_trans h99
    (pairwise_le_getLast? _ hsorted hq (List.getLast?_eq_getLast _ hne))

/-- Witness for C6 (amended) at a concrete input: samples
`(50,100), (100,100)`. -/
theorem runFileProgress_monotone_and_high_witness :
    (runFileProgress ([50, 100].map fun c => (c, 100)) 0).Pairwise (· ≤ ·)
  ∧ ∃ q, (runFileProgress ([50, 100].map fun c => (c, 100)) 0).getLast? = some q
      ∧ (99 : ℚ) / 100 ≤ q := by
  have h := runFileProgress_monotone_and_high [50, 100] 100
    (by norm_num) (by simp) (by simp)
  exact ⟨h.1, h.2 ⟨100, by simp, by norm_num⟩⟩

lemma seqResults_not_failFast (out : List Bool) : seqResults false out = out := by
  induction out with
  | nil => rfl
  | cons r rest ih => simp [seqResults, ih]

lemma seqResults_no_failure (out : List Bool) (h : false ∉ out) :
    seqResults true out = out := by
  induction out with
  | nil => rfl
  | cons r rest ih =>
      cases r
      · exact absurd (List.mem_cons_self _ _) h
      · simp only [seqResults, Bool.true_eq_false, false_and, if_false]
        rw [ih fun hm => h (List.mem_cons_of_mem _ hm)]

lemma seqResults_failFast (out : List Bool) (h : false ∈ out) :
    (∃ rest, out = out.takeWhile (fun b => b) ++ false :: rest) ∧
      seqResults true out = out.takeWhile (fun b => b) ++ [false] := by
  induction out with
  | nil => cases h
  | cons r rest ih =>
      cases r
      · exact ⟨⟨rest, by simp [List.takeWhile]⟩, by simp [seqResults, List.takeWhile]⟩
      · have htail : false ∈ rest := by
          rcases List.mem_cons.mp h with h0 | h0
          · cases h0
          · exact h0
        obtain ⟨⟨tail, hdec⟩, hrun⟩ := ih htail
        have hstep : seqResults true (true :: rest) = true :: seqResults true rest := by
          simp [seqResults]
        constructor
        · refine ⟨tail, ?_⟩
          rw [List.takeWhile_cons_of_pos (by simp), List.cons_append]
          exact congrArg (true :: ·) hdec
        · rw [hstep, hrun, List.takeWhile_cons_of_pos (by simp), List.cons_append]

lemma parResults_not_failFast (outs : List TaskOutcome) :
    parResults false outs = outs.map collectedFlag := by
  induction outs with
  | nil => rfl
  | cons o rest ih => simp [parResults, ih]

lemma parResults_failFast (outs : List TaskOutcome) (h : TaskOutcome.fail ∈ outs) :
    parResults true outs =
      ((outs.takeWhile fun o => o != TaskOutcome.fail).map collectedFlag) ++ [false] := by
  induction outs with
  | nil => cases h
  | cons o rest ih =>
      by_cases ho : o = TaskOutcome.fail
      · subst ho
        simp [parResults, List.takeWhile]
      · have htail : TaskOutcome.fail ∈ rest := by
          rcases List.mem_cons.mp h with h0 | h0
          · exact absurd h0.symm ho
          · exact h0
        rw [List.takeWhile_cons_of_pos (by simp [ho])]
        simp only [parResults, ho, false_and, if_false]
        simp [ih htail]

lemma count_true_add_count_false (l : List Bool) :
    l.count true + l.count false = l.length := by
  induction l with
  | nil => rfl
  | cons b tl ih => cases b <;> simp [List.count_cons] <;> omega

lemma count_true_takeWhile (l : List Bool) :
    (l.takeWhile fun b => b).count true = (l.takeWhile fun b => b).length := by
  induction l with
  | nil => rfl
  | cons b tl ih =>
      cases b
      · simp [List.takeWhile]
      · simpa [List.takeWhile] using ih

/-- C7: with `fail_fast = true`, after the first worker-reported failure no
further unsubmitted item is attempted: the result list is the prefix of
successful items followed by the single failing item, and the failure count
is at least `1`; with `fail_fast = false` every item runs to completion (or
timeout in parallel mode) and the final success/failure counts cover every
item.  `out` is the per-task success flag in sequential mode, `outs` the
per-task collection outcome in parallel mode. -/
theorem failFast_behavior (out : List Bool) (outs : List TaskOutcome) :
    (false ∈ out →
      (∃ rest, out = out.takeWhile (fun b => b) ++ false :: rest) ∧
      seqResults true out = out.takeWhile (fun b => b) ++ [false] ∧
      1 ≤ (processSequential true out).2.2)
  ∧ ((processSequential false out).1 = out ∧
      (processSequential false out).2.1 + (processSequential false out).2.2 =
        out.length)
  ∧ (TaskOutcome.fail ∈ outs →
      parResults true outs =
        ((outs.takeWhile fun o => o != TaskOutcome.fail).map collectedFlag) ++ [false] ∧
      (parResults true outs).length =
        (outs.takeWhile fun o => o != TaskOutcome.fail).length + 1 ∧
      1 ≤ (processParallel true outs).2.2)
  ∧ ((processParallel false outs).1.length = outs.length ∧
      (processParallel false outs).2.1 + (processParallel false outs).2.2 =
        outs.length) := by
  refine ⟨?_, ?_, ?_, ?_⟩
  · intro h
    obtain ⟨hdec, hrun⟩ := seqResults_failFast out h
    refine ⟨hdec, hrun, ?_⟩
    obtain ⟨rest, hrest⟩ := hdec
    have hlen : out.length = (out.takeWhile fun b => b).length + 1 + rest.length := by
      have hc := congrArg List.length hrest
      simp only [List.length_append, List.length_cons] at hc
      omega
    have hcount : (seqResults true out).count true =
        (out.takeWhile fun b => b).length := by
      rw [hrun, List.count_append]
      simp [count_true_takeWhile]
    show 1 ≤ out.length - (seqResults true out).count true
    rw [hcount]; omega
  · have hres : seqResults false out = out := seqResults_not_failFast out
    refine ⟨hres, ?_⟩
    show (seqResults false out).count true +
        (out.length - (seqResults false out).count true) = out.length
    rw [hres]
    have := List.count_le_length (a := true) (l := out)
    omega
  · intro h
    have hrun := parResults_failFast outs h
    refine ⟨hrun, by rw [hrun]; simp, ?_⟩
    show 1 ≤ (parResults true outs).length - (parResults true outs).count true
    have hct : (parResults true outs).count true ≤
        ((outs.takeWhile fun o => o != TaskOutcome.fail).map collectedFlag).length := by
      rw [hrun, List.count_append]
      simpa using List.count_le_length (a := true)
        (l := (outs.takeWhile fun o => o != TaskOutcome.fail).map collectedFlag)
    have hlen : (parResults true outs).length =
        ((outs.takeWhile fun o => o != TaskOutcome.fail).map collectedFlag).length + 1 := by
      rw [hrun]; simp
    omega
  · have hres : parResults false outs = outs.map collectedFlag :=
      parResults_not_failFast outs
    constructor
    · show (parResults false outs).length = outs.length
      rw [hres]; simp
    · show (parResults false outs).count true +
          ((parResults false outs).length - (parResults false outs).count true) =
          outs.length
      have := List.count_le_length (a := true) (l := parResults false outs)
      have hlen : (parResults false outs).length = outs.length := by rw [hres]; simp
      omega

/-- Witness for C7 at concrete inputs: sequential tasks
`[true, false, true]` and parallel outcomes `[ok, fail, ok]` with
`fail_fast` in both settings. -/
theorem failFast_behavior_witness :
    seqResults true [true, false, true] =
      ([true, false, true].takeWhile (fun b => b)) ++ [false]
  ∧ 1 ≤ (processSequential true [true, false, true]).2.2
  ∧ 1 ≤ (processParallel true [.ok, .fail, .ok]).2.2
  ∧ (processParallel false [.ok, .fail, .ok]).2.1 +
      (processParallel false [.ok, .fail, .ok]).2.2 = 3 := by
  have h := failFast_behavior [true, false, true] [.ok, .fail, .ok]
  have hseq := h.1 (by simp)
  have hpar := h.2.2.1 (by simp)
  exact ⟨hseq.2.1, hseq.2.2, hpar.2.2, h.2.2.2.2⟩

/-- C8: an explicit worker request `n ≥ 1` resolves to
`min n cpu_count`; an auto request (`None` or a count `≤ 0`) resolves to
`max 1 (cpu_count - 1)`; the resolved count is always at least `1` and never
exceeds the hardware ceiling nor an explicit request, and
`get_optimal_worker_count` agrees with the auto rule. -/
theorem resolveWorkers_spec (cpuCount : ℕ) (hcpu : 1 ≤ cpuCount) :
    (∀ n : ℤ, 1 ≤ n →
      resolveWorkers (some n) cpuCount = min n.toNat cpuCount ∧
      1 ≤ min n.toNat cpuCount ∧
      min n.toNat cpuCount ≤ cpuCount ∧
      (min n.toNat cpuCount : ℤ) ≤ n)
  ∧ resolveWorkers none cpuCount = max 1 (cpuCount - 1)
  ∧ (∀ w : ℤ, w ≤ 0 → resolveWorkers (some w) cpuCount = max 1 (cpuCount - 1))
  ∧ 1 ≤ max 1 (cpuCount - 1)
  ∧ max 1 (cpuCount - 1) ≤ cpuCount
  ∧ getOptimalWorkerCount cpuCount = max 1 (cpuCount - 1) := by
  refine ⟨?_, rfl, ?_, ?_, ?_, rfl⟩
  · intro n hn
    have hneg : ¬ n ≤ 0 := by omega
    refine ⟨?_, by omega, by omega, by omega⟩
    show (if n ≤ 0 then max 1 (cpuCount - 1) else min n.toNat cpuCount) = _
    rw [if_neg hneg]
  · intro w hw
    show (if w ≤ 0 then max 1 (cpuCount - 1) else min w.toNat cpuCount) = _
    rw [if_pos hw]
  · omega
  · omega

/-- Witness for C8 at `cpu_count = 4`: explicit request 2 → 2, auto → 3,
request 0 → 3. -/
theorem resolveWorkers_spec_witness :
    resolveWorkers (some 2) 4 = 2 ∧ resolveWorkers none 4 = 3 ∧
      resolveWorkers (some 0) 4 = 3 := by
  have h := resolveWorkers_spec 4 (by norm_num)
  refine ⟨?_, ?_, ?_⟩
  · have := (h.1 2 (by norm_num)).1
    simpa using this
  · simpa using h.2.1
  · simpa using h.2.2.1 0 le_rfl

/-- C10: in sequential mode the returned `failure_count` is the total item
count minus `success_count`, so with `fail_fast` the items never attempted
after the first failure are counted as failures even though they have no
entry in the results list; in parallel mode `failure_count` is the number of
collected results minus `success_count`, i.e. exactly the failed entries of
the results list. -/
theorem failureCount_formulas (ff : Bool) (out : List Bool)
    (outs : List TaskOutcome) (hne : out ≠ []) :
    ((processSequential ff out).2.2 =
        out.length - (processSequential ff out).2.1
      ∧ (processSequential ff out).2.2 =
          (processSequential ff out).1.count false +
            (out.length - (processSequential ff out).1.length))
  ∧ ((processParallel ff outs).2.2 =
        (processParallel ff outs).1.length - (processParallel ff outs).2.1
      ∧ (processParallel ff outs).2.2 = (processParallel ff outs).1.count false) := by
  have hseq_len : (seqResults ff out).length ≤ out.length := by
    cases ff
    · rw [seqResults_not_failFast]
    · by_cases h : false ∈ out
      · obtain ⟨⟨rest, hdec⟩, hrun⟩ := seqResults_failFast out h
        have h1 : (seqResults true out).length = (out.takeWhile fun b => b).length + 1 := by
          rw [hrun]; simp
        have h2 : out.length = (out.takeWhile fun b => b).length + (rest.length + 1) := by
          have hc := congrArg List.length hdec
          simpa using hc
        omega
      · rw [seqResults_no_failure out h]
  have hseq_cnt := count_true_add_count_false (seqResults ff out)
  have hseq_le := List.count_le_length (a := true) (l := seqResults ff out)
  have hpar_cnt := count_true_add_count_false (parResults ff outs)
  have hpar_le := List.count_le_length (a := true) (l := parResults ff outs)
  refine ⟨⟨rfl, ?_⟩, ⟨rfl, ?_⟩⟩
  · show out.length - (seqResults ff out).count true =
        (seqResults ff out).count false + (out.length - (seqResults ff out).length)
    omega
  · show (parResults ff outs).length - (parResults ff outs).count true =
        (parResults ff outs).count false
    omega

/-- Witness for C10 at concrete inputs: sequential `fail_fast` run on
`[true, false, true]` (one unattempted item counted as a failure) and
parallel run on `[ok, fail, timeout]`. -/
theorem failureCount_formulas_witness :
    (processSequential true [true, false, true]).2.2 =
        3 - (processSequential true [true, false, true]).2.1
  ∧ (processSequential true [true, false, true]).2.2 =
      (processSequential true [true, false, true]).1.count false +
        (3 - (processSequential true [true, false, true]).1.length)
  ∧ (processParallel true [.ok, .fail, .timeout]).2.2 =
      (processParallel true [.ok, .fail, .timeout]).1.count false := by
  have h := failureCount_formulas true [true, false, true]
    [.ok, .fail, .timeout] (by simp)
  exact ⟨h.1.1, h.1.2, h.2.2⟩

/-- C9: publishing an event to a batch id with zero subscribers returns
without error, delivers nothing, and leaves the registry unchanged; and
unsubscribing the same channel twice has no observable effect beyond the
first removal (removal is idempotent). -/
theorem broadcast_empty_and_remove_idem (st : ProgressServiceState)
    (jobId : String) (q : ℕ) (event data : String) :
    (st.connections jobId = ∅ → broadcast st jobId event data = (st, []))
  ∧ removeConnection (removeConnection st jobId q) jobId q =
      removeConnection st jobId q := by
  constructor
  · intro h
    unfold broadcast
    rw [if_pos h]
  · unfold removeConnection
    refine congrArg ProgressServiceState.mk (funext fun j => ?_)
    by_cases hj : j = jobId
    · simp [hj, Finset.erase_idem]
    · simp [hj]

/-- Witness for C9 at a concrete registry: one batch `"job-a"` with two
subscribed queues; publishing to the unknown `"job-b"` is a no-op, and
unsubscribing queue `1` from `"job-a"` twice equals unsubscribing once. -/
theorem broadcast_empty_and_remove_idem_witness :
    broadcast ⟨fun j => if j = "job-a" then {1, 2} else ∅⟩ "job-b" "error" "d" =
      (⟨fun j => if j = "job-a" then {1, 2} else ∅⟩, [])
  ∧ removeConnection
      (removeConnection ⟨fun j => if j = "job-a" then {1, 2} else ∅⟩ "job-a" 1)
      "job-a" 1 =
      removeConnection ⟨fun j => if j = "job-a" then {1, 2} else ∅⟩ "job-a" 1 := by
  have h := broadcast_empty_and_remove_idem
    ⟨fun j => if j = "job-a" then {1, 2} else ∅⟩ "job-a" 1 "error" "d"
  have h' := broadcast_empty_and_remove_idem
    ⟨fun j => if j = "job-a" then {1, 2} else ∅⟩ "job-b" 1 "error" "d"
  refine ⟨h'.1 ?_, h.2⟩
  show (if "job-b" = "job-a" then ({1, 2} : Finset ℕ) else ∅) = ∅
  rw [if_neg (by decide)]

lemma mem_of_getElem?_eq_some {α : Type} {l : List α} {i : ℕ} {a : α}
    (h : l[i]? = some a) : a ∈ l := by
  obtain ⟨hlt, he⟩ := List.getElem?_eq_some.mp h
  exact he ▸ List.getElem_mem hlt

/-- Replacing the element at a valid index changes `countP` by the
difference of the two indicator values. -/
lemma countP_set_add {α : Type} (p : α → Bool) (l : List α) (i : ℕ)
    {a : α} (b : α) (h : l[i]? = some a) :
    (l.set i b).countP p + (if p a then 1 else 0) =
      l.countP p + (if p b then 1 else 0) := by
  induction l generalizing i with
  | nil => simp at h
  | cons hd tl ih =>
      cases i with
      | zero =>
          simp only [List.getElem?_cons_zero, Option.some.injEq] at h
          subst h
          simp only [List.set_cons_zero, List.countP_cons]
          split_ifs <;> omega
      | succ j =>
          simp only [List.getElem?_cons_succ] at h
          have hrec := ih j h
          simp only [List.set_cons_succ, List.countP_cons]
          split_ifs at hrec ⊢ <;> omega

lemma initState_inv (cfg : JobConfig) : Inv cfg (initState cfg) := by
  refine ⟨?_, ?_, ?_, ?_, ?_, ?_, ?_, ?_, ?_⟩ <;>
    simp [initState, List.countP_replicate, isCompleted, isFailed, isSkipped,
      holdsSlot, unresolved, JobConfig.total]

/-- Every enabled step preserves the invariant. -/
lemma step_inv {cfg : JobConfig} {l : JobLabel} {s s' : JobState}
    (hstep : step cfg l s = some s') (hinv : Inv cfg s) : Inv cfg s' := by
  obtain ⟨hlen, hcomp, hfail, hprog, hslots, hnoskip, hterm, hfres, hfstat⟩ := hinv
  cases l with
  | acquire i =>
      simp only [step] at hstep
      split_ifs at hstep with hc
      obtain ⟨hfi, hsem⟩ := hc
      cases hstep
      have hC := countP_set_add isCompleted s.files i FileStatus.holding hfi
      have hF := countP_set_add isFailed s.files i FileStatus.holding hfi
      have hH := countP_set_add holdsSlot s.files i FileStatus.holding hfi
      have hS := countP_set_add isSkipped s.files i FileStatus.holding hfi
      simp only [isCompleted, isFailed, holdsSlot, isSkipped,
        Bool.false_eq_true, if_false, add_zero, if_true] at hC hF hH hS
      have hpos : 0 < s.files.countP unresolved :=
        List.countP_pos_iff.mpr ⟨_, mem_of_getElem?_eq_some hfi, rfl⟩
      refine ⟨?_, ?_, ?_, ?_, ?_, ?_, ?_, ?_, ?_⟩ <;> dsimp only
      · simpa [List.length_set] using hlen
      · omega
      · omega
      · exact hprog
      · omega
      · intro ha; have := hnoskip ha; omega
      · exact hterm
      · intro hf; exact absurd (hfres hf) (by omega)
      · intro hf; exact absurd (hfres hf) (by omega)
  | beginFile i =>
      simp only [step] at hstep
      split_ifs at hstep with hc
      obtain ⟨hfi, hact⟩ := hc
      cases hstep
      have hC := countP_set_add isCompleted s.files i FileStatus.processing hfi
      have hF := countP_set_add isFailed s.files i FileStatus.processing hfi
      have hH := countP_set_add holdsSlot s.files i FileStatus.processing hfi
      have hS := countP_set_add isSkipped s.files i FileStatus.processing hfi
      simp only [isCompleted, isFailed, holdsSlot, isSkipped,
        Bool.false_eq_true, if_false, add_zero, if_true] at hC hF hH hS
      have hpos : 0 < s.files.countP unresolved :=
        List.countP_pos_iff.mpr ⟨_, mem_of_getElem?_eq_some hfi, rfl⟩
      refine ⟨?_, ?_, ?_, ?_, ?_, ?_, ?_, ?_, ?_⟩ <;> dsimp only
      · simpa [List.length_set] using hlen
      · omega
      · omega
      · exact hprog
      · omega
      · intro ha; have := hnoskip ha; omega
      · exact hterm
      · intro hf; exact absurd (hfres hf) (by omega)
      · intro hf; exact absurd (hfres hf) (by omega)
  | skipFile i =>
      simp only [step] at hstep
      split_ifs at hstep with hc
      obtain ⟨hfi, hact⟩ := hc
      cases hstep
      have hC := countP_set_add isCompleted s.files i FileStatus.skipped hfi
      have hF := countP_set_add isFailed s.files i FileStatus.skipped hfi
      have hH := countP_set_add holdsSlot s.files i FileStatus.skipped hfi
      simp only [isCompleted, isFailed, holdsSlot, isSkipped,
        Bool.false_eq_true, if_false, add_zero, if_true] at hC hF hH
      have hpos : 0 < s.files.countP unresolved :=
        List.countP_pos_iff.mpr ⟨_, mem_of_getElem?_eq_some hfi, rfl⟩
      refine ⟨?_, ?_, ?_, ?_, ?_, ?_, ?_, ?_, ?_⟩ <;> dsimp only
      · simpa [List.length_set] using hlen
      · omega
      · omega
      · exact hprog
      · omega
      · intro ha; rw [hact] at ha; exact absurd ha (by simp)
      · exact hterm
      · intro hf; exact absurd (hfres hf) (by omega)
      · intro hf; exact absurd (hfres hf) (by omega)
  | finish i =>
      simp only [step] at hstep
      cases hoc : cfg.outcomes[i]? with
      | none => rw [hoc] at hstep; exact Option.noConfusion hstep
      | some ok =>
          rw [hoc] at hstep
          split_ifs at hstep with hfi
          have hpos : 0 < s.files.countP unresolved :=
            List.countP_pos_iff.mpr ⟨_, mem_of_getElem?_eq_some hfi, rfl⟩
          cases ok with
          | true =>
              simp only [if_true] at hstep
              cases hstep
              have hC := countP_set_add isCompleted s.files i FileStatus.completed hfi
              have hF := countP_set_add isFailed s.files i FileStatus.completed hfi
              have hH := countP_set_add holdsSlot s.files i FileStatus.completed hfi
              have hS := countP_set_add isSkipped s.files i FileStatus.completed hfi
              simp only [isCompleted, isFailed, holdsSlot, isSkipped,
                Bool.false_eq_true, if_false, add_zero, if_true] at hC hF hH hS
              refine ⟨?_, ?_, ?_, ?_, ?_, ?_, ?_, ?_, ?_⟩ <;> dsimp only
              · simpa [List.length_set] using hlen
              · omega
              · omega
              · omega
              · intro ha; have := hnoskip ha; omega
              · exact hterm
              · intro hf; exact absurd (hfres hf) (by omega)
              · intro hf; exact absurd (hfres hf) (by omega)
          | false =>
              simp only [Bool.false_eq_true, if_false] at hstep
              cases hstep
              have hC := countP_set_add isCompleted s.files i FileStatus.failed hfi
              have hF := countP_set_add isFailed s.files i FileStatus.failed hfi
              have hH := countP_set_add holdsSlot s.files i FileStatus.failed hfi
              have hS := countP_set_add isSkipped s.files i FileStatus.failed hfi
              simp only [isCompleted, isFailed, holdsSlot, isSkipped,
                Bool.false_eq_true, if_false, add_zero, if_true] at hC hF hH hS
              refine ⟨?_, ?_, ?_, ?_, ?_, ?_, ?_, ?_, ?_⟩ <;> dsimp only
              · simpa [List.length_set] using hlen
              · omega
              · omega
              · omega
              · intro ha; have := hnoskip ha; omega
              · exact hterm
              · intro hf; exact absurd (hfres hf) (by omega)
              · intro hf; exact absurd (hfres hf) (by omega)
  | cancel =>
      simp only [step] at hstep
      split_ifs at hstep with hc
      cases hstep
      refine ⟨hlen, hcomp, hfail, hprog, hslots, ?_, ?_, ?_, ?_⟩ <;> dsimp only
      · intro ha; exact absurd ha (by simp)
      · rintro (h | h) <;> exact JobStatus.noConfusion h
      · intro hf; exact absurd hf (by simp [hc.2])
      · intro hf; exact absurd hf (by simp [hc.2])
  | finalize =>
      simp only [step] at hstep
      split_ifs at hstep with hc hq
      · cases hstep
        have hres0 : s.files.countP unresolved = 0 := by
          rw [List.countP_eq_zero]
          intro a ha
          have hr := (List.all_eq_true.mp hc.1) a ha
          cases a <;> simp_all [isResolved, unresolved]
        refine ⟨hlen, hcomp, hfail, hprog, hslots, hnoskip,
          fun _ => rfl, fun _ => hres0, fun _ => ?_⟩
        dsimp only
        rw [if_pos hq]
      · cases hstep
        have hres0 : s.files.countP unresolved = 0 := by
          rw [List.countP_eq_zero]
          intro a ha
          have hr := (List.all_eq_true.mp hc.1) a ha
          cases a <;> simp_all [isResolved, unresolved]
        refine ⟨hlen, hcomp, hfail, hprog, hslots, hnoskip,
          fun _ => rfl, fun _ => hres0, fun _ => ?_⟩
        dsimp only
        rw [if_neg hq]

/-- The invariant holds in every state reachable from the initial state. -/
lemma run_inv {cfg : JobConfig} :
    ∀ (ls : List JobLabel) {s s' : JobState},
      run cfg ls s = some s' → Inv cfg s → Inv cfg s'
  | [], s, s', h, hi => by
      simp only [run, Option.some.injEq] at h
      exact h ▸ hi
  | l :: ls, s, s', h, hi => by
      simp only [run] at h
      cases hst : step cfg l s with
      | none => rw [hst] at h; exact Option.noConfusion h
      | some s1 =>
          rw [hst] at h
          exact run_inv ls h (step_inv hst hi)

/-- Extract a projection of the final state of a concrete run. -/
lemma runProj {cfg : JobConfig} {ls : List JobLabel} {s : JobState}
    {α : Type} (f : JobState → α) {a : α}
    (hs : run cfg ls (initState cfg) = some s)
    (h : (run cfg ls (initState cfg)).map f = some a) : f s = a := by
  rw [hs] at h
  simpa using h

/-- In every reachable state, `completed + failed ≤ total`. -/
lemma counts_le_total {cfg : JobConfig} {s : JobState} (hinv : Inv cfg s) :
    s.completedCnt + s.failedCnt ≤ cfg.total := by
  obtain ⟨hlen, hcomp, hfail, -, -, -, -, -, -⟩ := hinv
  have hsplit := List.length_eq_countP_add_countP isCompleted s.files
  have hmono : s.files.countP isFailed ≤
      s.files.countP fun a => decide ¬ isCompleted a = true :=
    List.countP_mono_left fun a _ hf => by
      cases a <;> simp_all [isFailed, isCompleted]
  omega

/-- Once a run has finalized without cancellation ever being requested,
every file is completed or failed and the counters sum to the total. -/
lemma resolved_counts {cfg : JobConfig} {s : JobState} (hinv : Inv cfg s)
    (hact : s.active = true) (hfin : s.finalized = true) :
    s.completedCnt + s.failedCnt = cfg.total := by
  obtain ⟨hlen, hcomp, hfail, -, -, hnoskip, -, hfres, -⟩ := hinv
  have hunres := hfres hfin
  have hskip := hnoskip hact
  have hsplit := List.length_eq_countP_add_countP isCompleted s.files
  have hcong : (s.files.countP fun a => decide ¬ isCompleted a = true) =
      s.files.countP isFailed := by
    apply List.countP_congr
    intro a ha
    have h1 := List.countP_eq_zero.mp hunres a ha
    have h2 := List.countP_eq_zero.mp hskip a ha
    cases a <;> simp_all [isCompleted, isFailed, unresolved, isSkipped]
  omega

/-- C1 (code-bug evidence, Scenario D): after file 1 of 3 completes and the
batch is cancelled before files 2-3 start, the skipped files never reach
`processing` and contribute to no counter — but the post-gather update
overwrites the `cancelled` status written by `cancel_job`: the run ends with
status `completed`, not `cancelled` as the claim states. -/
theorem cancelled_batch_ends_completed :
    (run cfgD schedD (initState cfgD)).map JobState.status = some JobStatus.completed
  ∧ (run cfgD schedD (initState cfgD)).map JobState.status ≠ some JobStatus.cancelled
  ∧ (run cfgD schedD (initState cfgD)).map JobState.completedCnt = some 1
  ∧ (run cfgD schedD (initState cfgD)).map JobState.failedCnt = some 0
  ∧ (∃ s ∈ traceStates cfgD schedD (initState cfgD), s.status = JobStatus.cancelled)
  ∧ ∀ s ∈ traceStates cfgD schedD (initState cfgD),
      s.files[1]? ≠ some FileStatus.processing ∧
      s.files[2]? ≠ some FileStatus.processing := by
  decide

/-- C2 counterexample to the claim as stated: a batch with zero items
resolves immediately with no failed item, yet the code marks it `failed`
because `failed_count == total_files` holds as `0 == 0`. -/
theorem empty_batch_marked_failed :
    (⟨[], 3⟩ : JobConfig).total = 0
  ∧ (run ⟨[], 3⟩ [.finalize] (initState ⟨[], 3⟩)).map JobState.failedCnt = some 0
  ∧ (run ⟨[], 3⟩ [.finalize] (initState ⟨[], 3⟩)).map JobState.status =
      some JobStatus.failed := by
  decide

/-- C2 (amended): for every batch whose run resolves all items without
cancellation, the terminal status is `failed` exactly when every item failed
— in particular a zero-item batch is marked `failed`, the all-failed branch
holding vacuously — and `completed` otherwise, with the counters summing to
the total. -/
theorem final_status_rule (cfg : JobConfig) (ls : List JobLabel) (s : JobState)
    (h : run cfg ls (initState cfg) = some s)
    (hact : s.active = true) (hfin : s.finalized = true) :
    s.status =
      (if s.failedCnt = cfg.total then JobStatus.failed else JobStatus.completed)
  ∧ (s.failedCnt = cfg.total ↔ ∀ st ∈ s.files, st = FileStatus.failed)
  ∧ s.completedCnt + s.failedCnt = cfg.total := by
  have hinv := run_inv ls h (initState_inv cfg)
  refine ⟨hinv.finalStatus hfin, ?_, resolved_counts hinv hact hfin⟩
  rw [hinv.failEq, ← hinv.lenEq]
  constructor
  · intro hc st hmem
    have := List.countP_eq_length.mp hc st hmem
    cases st <;> simp_all [isFailed]
  · intro hall
    apply List.countP_eq_length.mpr
    intro a ha
    rw [hall a ha]
    rfl

/-- Witness for C2 (amended): on `cfgB` (one success, one failure) the run
finalizes with status `completed` and counters summing to 2. -/
theorem final_status_rule_witness :
    ∃ s, run cfgB schedB (initState cfgB) = some s
      ∧ s.status = JobStatus.completed
      ∧ s.completedCnt + s.failedCnt = 2 := by
  have hs : (run cfgB schedB (initState cfgB)).isSome = true := by decide
  obtain ⟨s, hs'⟩ := Option.isSome_iff_exists.mp hs
  have hact : s.active = true := runProj JobState.active hs' (by decide)
  have hfin : s.finalized = true := runProj JobState.finalized hs' (by decide)
  have hfc : s.failedCnt = 1 := runProj JobState.failedCnt hs' (by decide)
  have h := final_status_rule cfgB schedB s hs' hact hfin
  refine ⟨s, hs', ?_, h.2.2⟩
  rw [h.1, hfc, if_neg (by decide)]

/-- C3 counterexample to the claim as stated: in Scenario D the final status
is terminal (`completed`) and not `cancelled`, yet
`completed_count + failed_count = 1 ≠ 3 = total_count`. -/
theorem counts_gap_after_cancellation :
    ∃ s, run cfgD schedD (initState cfgD) = some s
      ∧ s.status ≠ JobStatus.processing
      ∧ s.status ≠ JobStatus.cancelled
      ∧ s.completedCnt + s.failedCnt ≠ cfgD.total := by
  have hs : (run cfgD schedD (initState cfgD)).isSome = true := by decide
  obtain ⟨s, hs'⟩ := Option.isSome_iff_exists.mp hs
  have hst : s.status = JobStatus.completed :=
    runProj JobState.status hs' (by decide)
  have hcc : s.completedCnt = 1 := runProj JobState.completedCnt hs' (by decide)
  have hfc : s.failedCnt = 0 := runProj JobState.failedCnt hs' (by decide)
  refine ⟨s, hs', ?_, ?_, ?_⟩
  · rw [hst]; decide
  · rw [hst]; decide
  · rw [hcc, hfc]; decide

/-- C3 (amended): in every reachable state of a run,
`completed_count + failed_count ≤ total_count`; the sum equals `total_count`
once the status is terminal and not `cancelled` — provided cancellation was
never requested during the run; and the stored overall progress always
equals `(completed_count + failed_count) / total_count`. -/
theorem counts_invariant (cfg : JobConfig) (ls : List JobLabel) (s : JobState)
    (h : run cfg ls (initState cfg) = some s) :
    s.completedCnt + s.failedCnt ≤ cfg.total
  ∧ (s.active = true → s.status ≠ JobStatus.processing →
      s.status ≠ JobStatus.cancelled →
      s.completedCnt + s.failedCnt = cfg.total)
  ∧ s.overall = ((s.completedCnt + s.failedCnt : ℕ) : ℚ) / (cfg.total : ℚ) := by
  have hinv := run_inv ls h (initState_inv cfg)
  refine ⟨counts_le_total hinv, ?_, hinv.progEq⟩
  intro hact hnp hnc
  have hfin : s.finalized = true := by
    apply hinv.termFinal
    cases hst : s.status
    · exact absurd hst hnp
    · exact Or.inl rfl
    · exact Or.inr rfl
    · exact absurd hst hnc
  exact resolved_counts hinv hact hfin

/-- Witness for C3 (amended) on the single-file run `cfgW`. -/
theorem counts_invariant_witness :
    ∃ s, run cfgW schedW (initState cfgW) = some s
      ∧ s.completedCnt + s.failedCnt ≤ cfgW.total
      ∧ s.completedCnt + s.failedCnt = cfgW.total
      ∧ s.overall = ((s.completedCnt + s.failedCnt : ℕ) : ℚ) / (cfgW.total : ℚ) := by
  have hs : (run cfgW schedW (initState cfgW)).isSome = true := by decide
  obtain ⟨s, hs'⟩ := Option.isSome_iff_exists.mp hs
  have hact : s.active = true := runProj JobState.active hs' (by decide)
  have hst : s.status = JobStatus.completed :=
    runProj JobState.status hs' (by decide)
  have h := counts_invariant cfgW schedW s hs'
  refine ⟨s, hs', h.1, h.2.1 hact ?_ ?_, h.2.2⟩
  · rw [hst]; decide
  · rw [hst]; decide

/-- C4: in every reachable state of a run with concurrency limit at least 1,
at most `limit` files are in `processing` status simultaneously, for every
total item count. -/
theorem processing_at_most_limit (cfg : JobConfig) (hlim : 1 ≤ cfg.limit)
    (ls : List JobLabel) (s : JobState)
    (h : run cfg ls (initState cfg) = some s) :
    s.files.countP isProcessing ≤ cfg.limit := by
  have hinv := run_inv ls h (initState_inv cfg)
  have hmono : s.files.countP isProcessing ≤ s.files.countP holdsSlot :=
    List.countP_mono_left fun a _ hp => by
      cases a <;> simp_all [isProcessing, holdsSlot]
  have := hinv.slotsEq
  omega

/-- Witness for C4: two queued files, limit 1, first file mid-conversion. -/
theorem processing_at_most_limit_witness :
    ∃ s, run ⟨[true, true], 1⟩ [.acquire 0, .beginFile 0]
        (initState ⟨[true, true], 1⟩) = some s
      ∧ s.files.countP isProcessing ≤ 1 := by
  have hs : (run ⟨[true, true], 1⟩ [.acquire 0, .beginFile 0]
      (initState ⟨[true, true], 1⟩)).isSome = true := by decide
  obtain ⟨s, hs'⟩ := Option.isSome_iff_exists.mp hs
  exact ⟨s, hs', processing_at_most_limit _ (by decide) _ s hs'⟩

end Mp3Extractor
